import Mathlib

/-!
Verification of the streaming-response consumer
(`StreamingService.handleStreamingResponse` in
`src/services/streaming-service.ts`) of the ai-backends-obsidian plugin.

The embedding works over `Str := List Char`.  JavaScript strings become
`Str`; the platform function `JSON.parse` (composed with reading the five
optional delta fields and the `done` flag of the `StreamChunk` interface in
`src/types/responses.ts`) is abstracted as a function
`Parse := Str → Option StreamChunk`, `none` modelling a parse exception.
The stream delivered by the reader is a list of chunks followed by an
ending (normal exhaustion, or a rejected read carrying an error message).
The observable behaviour of one invocation is an `Effects` record: the
ordered appends issued to the editor sink, the ordered notices, the number
of calls to `reader.releaseLock`, and the number of calls to
`reader.read`.
-/

set_option autoImplicit false

namespace StreamingSpec

/-- JavaScript strings, modelled as lists of characters. -/
abbrev Str := List Char

/-- Shorthand turning a Lean string literal into a `Str`. -/
def lit (s : String) : Str := s.data

/-- Whitespace characters recognised by the model of `String.trim`. -/
def isWS (c : Char) : Bool := c = ' ' ∨ c = '\t' ∨ c = '\n' ∨ c = '\r'

/-- Model of the JavaScript `String.prototype.trim`: removes whitespace
from both ends. -/
def jsTrim (s : Str) : Str :=
  ((s.dropWhile isWS).reverse.dropWhile isWS).reverse

/-- Model of `s.startsWith(p)`: `startsWithL p s` is true when `p` is an
initial segment of `s`. -/
def startsWithL : Str → Str → Bool
  | [], _ => true
  | _ :: _, [] => false
  | p :: ps, c :: cs => p = c && startsWithL ps cs

/-- The `StreamChunk` interface of `src/types/responses.ts`, restricted to
the fields `handleStreamingResponse` reads.  Each delta candidate is an
optional string (absent = `undefined`); `done` is the JavaScript
truthiness of the optional boolean `done` field (absent = falsy).  The
passthrough metadata fields (`provider`, `model`, `usage`) are never read
by the function and are omitted. -/
structure StreamChunk where
  content : Option Str := none
  text : Option Str := none
  delta : Option Str := none
  chunk : Option Str := none
  message : Option Str := none
  done : Bool := false
deriving DecidableEq, Repr

/-- Abstraction of `JSON.parse` followed by viewing the result through the
`StreamChunk` interface; `none` models a thrown parse error. -/
abbrev Parse := Str → Option StreamChunk

/-- JavaScript `a || b` on optional strings: the empty string and
`undefined` are falsy. -/
def jsOrStr (a b : Option Str) : Option Str :=
  match a with
  | some s => if s = [] then b else some s
  | none => b

/-- The value of the variable `content` in
`const content = streamData.content || streamData.text || streamData.delta
|| streamData.chunk || streamData.message;` (line 353 of the source). -/
def rawContent (c : StreamChunk) : Option Str :=
  jsOrStr c.content (jsOrStr c.text (jsOrStr c.delta (jsOrStr c.chunk c.message)))

/-- The delta actually appended for a parsed record: the guard
`if (content)` keeps only a truthy (non-empty) string. -/
def extractContent (c : StreamChunk) : Option Str :=
  match rawContent c with
  | some s => if s = [] then none else some s
  | none => none

/-- Outcome of the per-line classification inside the read loop: the line
is either skipped (empty, SSE control field, sentinel, non-JSON noise, or
a parse failure) or yields a parsed record. -/
inductive LineClass where
  | skip : LineClass
  | record : StreamChunk → LineClass
deriving DecidableEq, Repr

/-- The checks applied to the JSON candidate `jsonStr` (source lines
341-350): the `[DONE]` sentinel forms are skipped, empty strings and
strings not starting with a brace or bracket are skipped, and a parse
failure is swallowed by the surrounding catch. -/
def candidateClass (parse : Parse) (j : Str) : LineClass :=
  if j = lit "[DONE]" ∨ j = lit "data: [DONE]" then .skip
  else if j = [] ∨ (startsWithL ['{'] j = false ∧ startsWithL ['['] j = false) then .skip
  else
    match parse j with
    | none => .skip
    | some c => .record c

/-- Classification of one completed line by the body of the
`for (const line of lines)` loop (source lines 326-350): blank lines are
skipped, `data: ` lines are unwrapped and trimmed, other SSE control
fields are skipped, and everything else is treated as a bare candidate. -/
def classifyLine (parse : Parse) (line : Str) : LineClass :=
  if jsTrim line = [] then .skip
  else if startsWithL (lit "data: ") line then candidateClass parse (jsTrim (line.drop 6))
  else if startsWithL (lit "event:") line ∨ startsWithL (lit "id:") line ∨
      startsWithL (lit "retry:") line then .skip
  else candidateClass parse line

/-- Removes a leading carriage return; applied to the reversed line
accumulator it models the `\r` consumed by the separator `\r?\n`. -/
def dropCRHead : Str → Str
  | '\r' :: t => t
  | a => a

/-- Model of `buffer.split(/\r?\n/)` followed by `buffer = lines.pop()`:
`splitCRLF acc s` returns the completed lines of `s` (a `\r` immediately
preceding a `\n` is consumed by the separator) and the trailing partial
line; `acc` holds the reversed prefix of the current line. -/
def splitCRLF (acc : Str) : Str → List Str × Str
  | [] => ([], acc.reverse)
  | c :: rest =>
    if c = '\n' then
      let r := splitCRLF [] rest
      ((dropCRHead acc).reverse :: r.1, r.2)
    else splitCRLF (c :: acc) rest

/-- One pass of the `for (const line of lines)` loop over a list of
completed lines: returns the deltas appended in order and whether a record
with a truthy `done` flag caused the early `return` (source lines
375-378).  Lines positioned after such a record are not processed. -/
def runLines (parse : Parse) : List Str → List Str × Bool
  | [] => ([], false)
  | l :: rest =>
    match classifyLine parse l with
    | .skip => runLines parse rest
    | .record c =>
      let ds := (extractContent c).toList
      if c.done then (ds, true)
      else
        let r := runLines parse rest
        (ds ++ r.1, r.2)

/-- State produced by the `while (true)` read loop: the deltas appended,
whether the loop ended by the `done`-flag early return, the residual
partial-line buffer, and how many successful `reader.read()` calls were
made. -/
structure LoopResult where
  deltas : List Str
  finished : Bool
  buffer : Str
  reads : Nat
deriving DecidableEq, Repr

/-- The read loop (source lines 312-383): each delivered chunk is
appended to the buffer, completed lines are split off and processed, and
a `done` record stops the loop at once, before any further read. -/
def runChunks (parse : Parse) : List Str → Str → LoopResult
  | [], b => { deltas := [], finished := false, buffer := b, reads := 0 }
  | c :: rest, b =>
    let p := splitCRLF [] (b ++ c)
    let r := runLines parse p.1
    if r.2 then { deltas := r.1, finished := true, buffer := p.2, reads := 1 }
    else
      let k := runChunks parse rest p.2
      { deltas := r.1 ++ k.deltas, finished := k.finished, buffer := k.buffer,
        reads := k.reads + 1 }

/-- Processing of the residual buffer after normal stream exhaustion
(source lines 386-406): the buffer is trimmed, an optional `data: `
prefix is unwrapped, and only a non-sentinel candidate starting with a
brace is parsed; its delta, if any, is appended; its `done` flag is
ignored. -/
def runTail (parse : Parse) (buffer : Str) : List Str :=
  if jsTrim buffer = [] then []
  else
    let j0 := jsTrim buffer
    let j := if startsWithL (lit "data: ") j0 then jsTrim (j0.drop 6) else j0
    if j ≠ lit "[DONE]" ∧ startsWithL ['{'] j = true then
      match parse j with
      | none => []
      | some c => (extractContent c).toList
    else []

/-- How the reader terminates after the successful chunk deliveries:
either a read resolving with `done: true` (normal exhaustion) or a read
rejecting with an error whose message is carried. -/
inductive Ending where
  | eof : Ending
  | fail : Str → Ending
deriving DecidableEq, Repr

/-- Observable effects of one invocation: ordered sink appends (the
header insertion and every delta insertion at end of document), ordered
notices, number of `releaseLock` calls, number of `read` calls. -/
structure Effects where
  appends : List Str
  notices : List Str
  releases : Nat
  reads : Nat
deriving DecidableEq, Repr

/-- The whole of `handleStreamingResponse` (source lines 296-414) over a
stream script.  The header is appended first.  If a `done` record stopped
the loop, the success notice was already issued and the early return skips
both the residual-buffer processing and the trailing notice; the
terminating read (resolving done, or rejecting) is counted only when the
loop was not stopped early.  On a rejected read the catch block issues the
error notice and control then reaches the trailing success notice as well.
The finally block releases the reader lock on every path. -/
def handleStreamingResponse (parse : Parse) (chunks : List Str) (ending : Ending)
    (headerText successMessage : Str) : Effects :=
  let r := runChunks parse chunks []
  if r.finished then
    { appends := headerText :: r.deltas, notices := [successMessage],
      releases := 1, reads := r.reads }
  else
    match ending with
    | .eof =>
      { appends := headerText :: (r.deltas ++ runTail parse r.buffer),
        notices := [successMessage], releases := 1, reads := r.reads + 1 }
    | .fail msg =>
      { appends := headerText :: r.deltas,
        notices := [lit "Error during streaming: " ++ msg, successMessage],
        releases := 1, reads := r.reads + 1 }

/-! ### Lemmas about the line splitter -/

theorem splitCRLF_no_newline (w : Str) (acc : Str) (hw : '\n' ∉ w) :
    splitCRLF acc w = ([], acc.reverse ++ w) := by
  induction w generalizing acc with
  | nil => simp [splitCRLF]
  | cons c rest ih =>
    have hc : c ≠ '\n' := fun h => hw (h ▸ List.mem_cons_self c rest)
    have hr : '\n' ∉ rest := fun h => hw (List.mem_cons_of_mem c h)
    simp [splitCRLF, hc, ih _ hr]

theorem splitCRLF_rem_no_newline (x : Str) (acc : Str) (hacc : '\n' ∉ acc) :
    '\n' ∉ (splitCRLF acc x).2 := by
  induction x generalizing acc with
  | nil =>
    simp only [splitCRLF]
    intro h
    exact hacc (List.mem_reverse.mp h)
  | cons c rest ih =>
    by_cases hc : c = '\n'
    · subst hc
      simpa [splitCRLF] using ih [] (by simp)
    · have : '\n' ∉ c :: acc := by
        intro h
        rcases List.mem_cons.mp h with h | h
        · exact hc h.symm
        · exact hacc h
      simpa [splitCRLF, hc] using ih (c :: acc) this

theorem splitCRLF_append (x y : Str) (acc : Str) :
    splitCRLF acc (x ++ y)
      = ((splitCRLF acc x).1 ++ (splitCRLF (splitCRLF acc x).2.reverse y).1,
         (splitCRLF (splitCRLF acc x).2.reverse y).2) := by
  induction x generalizing acc with
  | nil => simp [splitCRLF]
  | cons c rest ih =>
    by_cases hc : c = '\n'
    · subst hc
      simp [splitCRLF, ih]
    · simp [splitCRLF, hc, ih]

/-- Feeding the remainder of one split together with the next chunk
continues the split exactly where it stopped. -/
theorem splitCRLF_comp (t c : Str) :
    splitCRLF [] (t ++ c)
      = ((splitCRLF [] t).1 ++ (splitCRLF [] ((splitCRLF [] t).2 ++ c)).1,
         (splitCRLF [] ((splitCRLF [] t).2 ++ c)).2) := by
  have hrem : '\n' ∉ (splitCRLF [] t).2 := splitCRLF_rem_no_newline t [] (by simp)
  have h1 : splitCRLF [] ((splitCRLF [] t).2 ++ c)
      = (splitCRLF (splitCRLF [] t).2.reverse c) := by
    rw [splitCRLF_append]
    rw [splitCRLF_no_newline _ [] hrem]
    simp
  rw [splitCRLF_append t c [], h1]

/-! ### Lemmas about the per-line loop -/

theorem runLines_append (parse : Parse) (l1 l2 : List Str) :
    runLines parse (l1 ++ l2)
      = if (runLines parse l1).2 then runLines parse l1
        else ((runLines parse l1).1 ++ (runLines parse l2).1, (runLines parse l2).2) := by
  induction l1 with
  | nil => simp [runLines]
  | cons l rest ih =>
    cases hcl : classifyLine parse l with
    | skip => simpa [runLines, hcl] using ih
    | record c =>
      by_cases hd : c.done
      · simp [runLines, hcl, hd]
      · by_cases hf : (runLines parse rest).2
        · simp [runLines, hcl, hd, ih, hf]
        · simp [runLines, hcl, hd, ih, hf, List.append_assoc]

/-! ### Observational equality of the read loop -/

/-- The part of the loop state that determines the remaining behaviour of
the invocation: the deltas, the early-return flag, and — only when the
loop was not stopped early — the residual buffer. -/
def obsR (r : LoopResult) : List Str × Bool × Str :=
  (r.deltas, r.finished, if r.finished then [] else r.buffer)

theorem runChunks_merge (parse : Parse) (c1 c2 : Str) (rest : List Str) (b : Str) :
    obsR (runChunks parse (c1 :: c2 :: rest) b)
      = obsR (runChunks parse ((c1 ++ c2) :: rest) b) := by
  have hsplit := splitCRLF_comp (b ++ c1) c2
  have hassoc : b ++ (c1 ++ c2) = (b ++ c1) ++ c2 := by simp
  set p1 := splitCRLF [] (b ++ c1) with hp1
  set p2 := splitCRLF [] (p1.2 ++ c2) with hp2
  have hra := runLines_append parse p1.1 p2.1
  by_cases h1 : (runLines parse p1.1).2
  · simp only [runChunks, hassoc, hsplit, h1, if_true, hra]
    simp [obsR, h1]
  · by_cases h2 : (runLines parse p2.1).2
    · simp only [runChunks, hassoc, hsplit, hra, h1, h2, if_true, if_false]
      simp [obsR, h1, h2, runChunks]
    · simp only [runChunks, hassoc, hsplit, hra, h1, h2, if_true, if_false]
      simp [obsR, h1, h2, runChunks]

theorem runChunks_join (parse : Parse) (rest : List Str) (c : Str) (b : Str) :
    obsR (runChunks parse (c :: rest) b)
      = obsR (runChunks parse [c ++ rest.flatten] b) := by
  induction rest generalizing c with
  | nil => simp
  | cons c2 rest ih =>
    calc obsR (runChunks parse (c :: c2 :: rest) b)
        = obsR (runChunks parse ((c ++ c2) :: rest) b) := runChunks_merge parse c c2 rest b
      _ = obsR (runChunks parse [(c ++ c2) ++ rest.flatten] b) := ih (c ++ c2)
      _ = obsR (runChunks parse [c ++ (c2 :: rest).flatten] b) := by
          simp [List.flatten_cons, List.append_assoc]

theorem runChunks_fin_append (parse : Parse) (chunks extra : List Str) (b : Str)
    (hfin : (runChunks parse chunks b).finished = true) :
    runChunks parse (chunks ++ extra) b = runChunks parse chunks b := by
  induction chunks generalizing b with
  | nil => simp [runChunks] at hfin
  | cons c rest ih =>
    by_cases h1 : (runLines parse (splitCRLF [] (b ++ c)).1).2
    · simp [runChunks, h1]
    · have hfin2 : (runChunks parse rest (splitCRLF [] (b ++ c)).2).finished = true := by
        simpa [runChunks, h1] using hfin
      simp [runChunks, h1, ih _ hfin2]

theorem runChunks_take_prefix (parse : Parse) (chunks : List Str) (k : Nat) (b : Str) :
    ∃ t, (runChunks parse chunks b).deltas
      = (runChunks parse (chunks.take k) b).deltas ++ t := by
  induction chunks generalizing k b with
  | nil => exact ⟨[], by simp [runChunks]⟩
  | cons c rest ih =>
    cases k with
    | zero => exact ⟨(runChunks parse (c :: rest) b).deltas, by simp [runChunks]⟩
    | succ k =>
      simp only [List.take_succ_cons, runChunks]
      by_cases h1 : (runLines parse (splitCRLF [] (b ++ c)).1).2
      · exact ⟨[], by simp [h1]⟩
      · obtain ⟨t, ht⟩ := ih k (splitCRLF [] (b ++ c)).2
        exact ⟨t, by simp [h1, ht]⟩

/-! ### Declarative description of the processed records -/

/-- The parsed records of a line sequence, in order, cut immediately
after the first record whose `done` flag is truthy (that record is
included; later lines are never reached by the loop). -/
def recordsUntilDone (parse : Parse) : List Str → List StreamChunk
  | [] => []
  | l :: rest =>
    match classifyLine parse l with
    | .skip => recordsUntilDone parse rest
    | .record c => if c.done then [c] else c :: recordsUntilDone parse rest

theorem runLines_eq_records (parse : Parse) (ls : List Str) :
    runLines parse ls
      = ((recordsUntilDone parse ls).filterMap extractContent,
         (recordsUntilDone parse ls).any (·.done)) := by
  induction ls with
  | nil => simp [runLines, recordsUntilDone]
  | cons l rest ih =>
    cases hcl : classifyLine parse l with
    | skip => simp [runLines, recordsUntilDone, hcl, ih]
    | record c =>
      by_cases hd : c.done
      · cases he : extractContent c <;>
          simp [runLines, recordsUntilDone, hcl, hd, he, List.filterMap_cons]
      · cases he : extractContent c <;>
          simp [runLines, recordsUntilDone, hcl, hd, he, ih, List.filterMap_cons]

/-- The record (if any) parsed out of the residual buffer by the
end-of-stream processing. -/
def tailRecord (parse : Parse) (buffer : Str) : Option StreamChunk :=
  if jsTrim buffer = [] then none
  else
    let j0 := jsTrim buffer
    let j := if startsWithL (lit "data: ") j0 then jsTrim (j0.drop 6) else j0
    if j ≠ lit "[DONE]" ∧ startsWithL ['{'] j = true then parse j
    else none

theorem runTail_eq_record (parse : Parse) (buffer : Str) :
    runTail parse buffer = (tailRecord parse buffer).toList.filterMap extractContent := by
  unfold runTail tailRecord
  by_cases h0 : jsTrim buffer = []
  · simp [h0]
  · simp only [h0, if_false]
    set j0 := jsTrim buffer
    set j := if startsWithL (lit "data: ") j0 then jsTrim (j0.drop 6) else j0
    by_cases hj : j ≠ lit "[DONE]" ∧ startsWithL ['{'] j = true
    · cases hp : parse j with
      | none => simp [hj, hp]
      | some c => cases he : extractContent c <;> simp [hj, hp, he]
    · simp [hj]

/-- The records a whole invocation processes, described over the joined
stream text: the records of the completed lines cut at the first `done`
record, followed — only when no `done` record occurred and the stream
ended by exhaustion — by the record recovered from the residual buffer. -/
def streamRecords (parse : Parse) (chunks : List Str) (ending : Ending) :
    List StreamChunk :=
  let p := splitCRLF [] chunks.flatten
  let recs := recordsUntilDone parse p.1
  if recs.any (·.done) then recs
  else
    match ending with
    | .fail _ => recs
    | .eof => recs ++ (tailRecord parse p.2).toList

/-- The loop over a single chunk holding the whole stream text, related
to the declarative record list. -/
theorem runChunks_single (parse : Parse) (x : Str) (b : Str) :
    runChunks parse [x] b
      = { deltas := (runLines parse (splitCRLF [] (b ++ x)).1).1,
          finished := (runLines parse (splitCRLF [] (b ++ x)).1).2,
          buffer := (splitCRLF [] (b ++ x)).2,
          reads := 1 } := by
  by_cases h : (runLines parse (splitCRLF [] (b ++ x)).1).2 <;>
    simp [runChunks, h]

/-! ### Claim theorems -/

/-- C4: on every invocation and every outcome, the sink receives the
header text as its first append, and the subsequent appends are exactly
the non-empty deltas of the processed records, in stream order: the
records of the completed lines of the joined stream text cut at the first
`done` record, followed (only on exhaustion without a `done` record) by
the record of the residual line.  No delta is reordered, dropped or
batched. -/
theorem c4_header_first_and_order_preserved (parse : Parse) (chunks : List Str)
    (ending : Ending) (headerText successMessage : Str) :
    (handleStreamingResponse parse chunks ending headerText successMessage).appends
      = headerText :: (streamRecords parse chunks ending).filterMap extractContent := by
  cases chunks with
  | nil =>
    cases ending <;>
      simp [handleStreamingResponse, runChunks, streamRecords, splitCRLF,
        recordsUntilDone, runTail, tailRecord, jsTrim]
  | cons c rest =>
    have hobs := runChunks_join parse rest c []
    rw [runChunks_single parse (c ++ rest.flatten) []] at hobs
    simp only [List.nil_append] at hobs
    simp only [obsR, Prod.mk.injEq,
      runLines_eq_records parse (splitCRLF [] (c ++ rest.flatten)).1] at hobs
    obtain ⟨h1, h2, h3⟩ := hobs
    simp only [handleStreamingResponse, streamRecords, List.flatten_cons]
    by_cases hf : (runChunks parse (c :: rest) []).finished
    · have hany : (recordsUntilDone parse (splitCRLF [] (c ++ rest.flatten)).1).any
          (·.done) = true := by
        rw [← h2, hf]
      simp [hf, hany, h1]
    · have hany : (recordsUntilDone parse (splitCRLF [] (c ++ rest.flatten)).1).any
          (·.done) = false := by
        rw [← h2]
        simp [hf]
      have hbuf : (runChunks parse (c :: rest) []).buffer
          = (splitCRLF [] (c ++ rest.flatten)).2 := by
        simpa [hf, hany] using h3
      cases ending with
      | eof =>
        simp [hf, hany, h1, hbuf, runTail_eq_record, List.filterMap_append]
      | fail msg =>
        simp [hf, hany, h1]

/-- C1 as coded fails: when the read call rejects, the catch block issues
the error notice and control then still reaches the trailing success
notice, so the invocation delivers two notifications.  Evaluated at the
failing input of the spec (a read rejecting with message "Stream error"
on the first call). -/
theorem c1_error_path_emits_two_notices :
    (handleStreamingResponse (fun _ => none) [] (.fail (lit "Stream error"))
        (lit "H") (lit "Done")).notices
      = [lit "Error during streaming: Stream error", lit "Done"] := by
  rfl

/-- C8: the reader lock is released exactly once on every terminal path:
normal exhaustion, early return on a `done` record, and rejected read. -/
theorem c8_release_lock_once (parse : Parse) (chunks : List Str) (ending : Ending)
    (headerText successMessage : Str) :
    (handleStreamingResponse parse chunks ending headerText successMessage).releases
      = 1 := by
  unfold handleStreamingResponse
  by_cases hf : (runChunks parse chunks []).finished <;> cases ending <;> simp [hf]

/-- C9: when the stream ends in a rejected read, the sink holds exactly
the header and the deltas appended before the failure — the error path
appends nothing further and removes nothing; moreover the loop only ever
extends the append sequence: the deltas after any prefix of the chunk
deliveries form a prefix of the final delta sequence. -/
theorem c9_no_rollback_on_error (parse : Parse) (chunks : List Str) (msg : Str)
    (headerText successMessage : Str) :
    (handleStreamingResponse parse chunks (.fail msg) headerText successMessage).appends
        = headerText :: (runChunks parse chunks []).deltas
      ∧ ∀ k, ∃ t, (runChunks parse chunks []).deltas
        = (runChunks parse (chunks.take k) []).deltas ++ t := by
  constructor
  · unfold handleStreamingResponse
    by_cases hf : (runChunks parse chunks []).finished <;> simp [hf]
  · intro k
    exact runChunks_take_prefix parse chunks k []

/-- A concrete parse function for evaluating the model on closed inputs:
it recognises three candidate texts, one of them a record with a truthy
`done` flag, and fails on everything else. -/
def testParse : Parse := fun s =>
  if s = '{' :: lit "a" then some { content := some (lit "Hello ") }
  else if s = '{' :: lit "x" then some { content := some (lit "x") }
  else if s = '{' :: lit "d" then some { content := some (lit "y"), done := true }
  else none

/-- C2 as stated fails on the `[DONE]` sentinel: the code skips the
sentinel line (`continue`, source lines 341-343) instead of finalizing.
In this run the sentinel arrives in the first chunk, yet two further
reads are performed and the delta of a record delivered after the
sentinel is still appended. -/
theorem c2_sentinel_not_short_circuit :
    handleStreamingResponse testParse [lit "data: [DONE]\n", '{' :: lit "x\n"] .eof
        (lit "H") (lit "OK")
      = { appends := [lit "H", lit "x"], notices := [lit "OK"],
          releases := 1, reads := 3 } := by
  decide

/-- C2 amended: only a parsed record with a truthy `done` flag
short-circuits.  Once the read loop has finished early, no further read
is performed — delivering any further chunks under any ending leaves the
invocation unchanged — and exactly one notification, the success message,
is emitted. -/
theorem c2_done_flag_short_circuits (parse : Parse) (chunks extra : List Str)
    (ending ending2 : Ending) (headerText successMessage : Str)
    (hfin : (runChunks parse chunks []).finished = true) :
    handleStreamingResponse parse (chunks ++ extra) ending headerText successMessage
        = handleStreamingResponse parse chunks ending2 headerText successMessage
      ∧ (handleStreamingResponse parse chunks ending headerText successMessage).notices
        = [successMessage] := by
  have hext := runChunks_fin_append parse chunks extra [] hfin
  constructor
  · unfold handleStreamingResponse
    rw [hext]
    simp [hfin]
  · unfold handleStreamingResponse
    simp [hfin]

theorem c2_done_flag_short_circuits_witness :
    (runChunks testParse ['{' :: lit "d\n"] []).finished = true
      ∧ handleStreamingResponse testParse (['{' :: lit "d\n"] ++ [lit "junk"]) .eof
            (lit "H") (lit "OK")
          = handleStreamingResponse testParse ['{' :: lit "d\n"] (.fail (lit "E"))
            (lit "H") (lit "OK")
      ∧ (handleStreamingResponse testParse ['{' :: lit "d\n"] .eof
            (lit "H") (lit "OK")).notices = [lit "OK"] :=
  ⟨by decide,
    (c2_done_flag_short_circuits testParse ['{' :: lit "d\n"] [lit "junk"] .eof
      (.fail (lit "E")) (lit "H") (lit "OK") (by decide)).1,
    (c2_done_flag_short_circuits testParse ['{' :: lit "d\n"] [lit "junk"] .eof
      (.fail (lit "E")) (lit "H") (lit "OK") (by decide)).2⟩

/-- C10: when a record with a truthy `done` flag is processed, its own
non-empty delta (if any) is appended and the loop returns at once: lines
positioned after it are never classified, and when the early return fires
the buffered partial-line remainder is discarded, no further read occurs,
and the single success notice is emitted. -/
theorem c10_done_record_discards_rest (parse : Parse) (pre : List Str) (l : Str)
    (c : StreamChunk) (rest : List Str)
    (hpre : (runLines parse pre).2 = false)
    (hl : classifyLine parse l = .record c) (hdone : c.done = true) :
    runLines parse (pre ++ l :: rest)
        = ((runLines parse pre).1 ++ (extractContent c).toList, true)
      ∧ ∀ (c0 : Str) (more : List Str) (ending : Ending) (h s : Str),
          (runLines parse (splitCRLF [] c0).1).2 = true →
          handleStreamingResponse parse (c0 :: more) ending h s
            = { appends := h :: (runLines parse (splitCRLF [] c0).1).1,
                notices := [s], releases := 1, reads := 1 } := by
  constructor
  · rw [runLines_append]
    simp [hpre, runLines, hl, hdone]
  · intro c0 more ending h s hfin0
    have hrc : runChunks parse (c0 :: more) []
        = { deltas := (runLines parse (splitCRLF [] c0).1).1, finished := true,
            buffer := (splitCRLF [] c0).2, reads := 1 } := by
      simp [runChunks, hfin0]
    unfold handleStreamingResponse
    rw [hrc]
    simp

theorem c10_done_record_discards_rest_witness :
    (runLines testParse []).2 = false
      ∧ classifyLine testParse ('{' :: lit "d")
          = .record { content := some (lit "y"), done := true }
      ∧ ({ content := some (lit "y"), done := true } : StreamChunk).done = true
      ∧ runLines testParse ([] ++ ('{' :: lit "d") :: ['{' :: lit "x"])
          = ((runLines testParse []).1
              ++ (extractContent { content := some (lit "y"), done := true }).toList, true)
      ∧ handleStreamingResponse testParse
            (('{' :: lit "d\n" ++ '{' :: lit "x\nPART") :: [lit "zz"]) .eof
            (lit "H") (lit "OK")
          = { appends := lit "H"
                :: (runLines testParse
                    (splitCRLF [] ('{' :: lit "d\n" ++ '{' :: lit "x\nPART")).1).1,
              notices := [lit "OK"], releases := 1, reads := 1 } :=
  ⟨by decide, by decide, by decide,
    (c10_done_record_discards_rest testParse [] ('{' :: lit "d")
      { content := some (lit "y"), done := true } ['{' :: lit "x"]
      (by decide) (by decide) (by decide)).1,
    (c10_done_record_discards_rest testParse [] ('{' :: lit "d")
      { content := some (lit "y"), done := true } ['{' :: lit "x"]
      (by decide) (by decide) (by decide)).2
      ('{' :: lit "d\n" ++ '{' :: lit "x\nPART") [lit "zz"] .eof
      (lit "H") (lit "OK") (by decide)⟩

/-! ### Field precedence (claim C5) -/

/-- A field value contributes a delta exactly when it is present with a
non-empty string. -/
def firstNonEmpty (o : Option Str) : Option Str :=
  match o with
  | some s => if s = [] then none else some s
  | none => none

/-- The first field, in the given order, that is present and non-empty.
Stated from the specification wording for comparison with the code-side
`extractContent`. -/
def firstNonEmptyOf : List (Option Str) → Option Str
  | [] => none
  | o :: rest =>
    match firstNonEmpty o with
    | some s => some s
    | none => firstNonEmptyOf rest

/-- The delta the specification prescribes: the first of `content`,
`text`, `delta`, `chunk`, `message` that is present and non-empty. -/
def specDelta (c : StreamChunk) : Option Str :=
  firstNonEmptyOf [c.content, c.text, c.delta, c.chunk, c.message]

theorem firstNonEmpty_jsOrStr (a r : Option Str) :
    firstNonEmpty (jsOrStr a r)
      = match firstNonEmpty a with
        | some s => some s
        | none => firstNonEmpty r := by
  rcases a with _ | s
  · simp [jsOrStr, firstNonEmpty]
  · by_cases hs : s = [] <;> simp [jsOrStr, firstNonEmpty, hs]

theorem extract_eq_spec (c : StreamChunk) : extractContent c = specDelta c := by
  obtain ⟨a, b, d, e, m, dn⟩ := c
  show firstNonEmpty (jsOrStr a (jsOrStr b (jsOrStr d (jsOrStr e m)))) = _
  simp only [specDelta, firstNonEmptyOf]
  rw [firstNonEmpty_jsOrStr, firstNonEmpty_jsOrStr, firstNonEmpty_jsOrStr,
    firstNonEmpty_jsOrStr]
  cases firstNonEmpty a <;> cases firstNonEmpty b <;> cases firstNonEmpty d <;>
    cases firstNonEmpty e <;> cases firstNonEmpty m <;> rfl

/-- C5: for every parsed record, the appended delta is the value of the
first field in the fixed order `content, text, delta, chunk, message`
that is present and non-empty; when no such field exists nothing is
appended for the record, but its `done` flag is still honoured. -/
theorem c5_delta_field_precedence (c : StreamChunk) (parse : Parse) (l : Str)
    (rest : List Str) :
    extractContent c = specDelta c
      ∧ (classifyLine parse l = .record c →
          runLines parse (l :: rest)
            = if c.done then ((specDelta c).toList, true)
              else ((specDelta c).toList ++ (runLines parse rest).1,
                    (runLines parse rest).2)) := by
  refine ⟨extract_eq_spec c, fun hl => ?_⟩
  rw [← extract_eq_spec c]
  by_cases hd : c.done <;> simp [runLines, hl, hd]

theorem c5_delta_field_precedence_witness :
    extractContent { text := some (lit "t"), message := some (lit "m") }
        = specDelta { text := some (lit "t"), message := some (lit "m") }
      ∧ runLines testParse ['{' :: lit "x"]
        = if ({ content := some (lit "x") } : StreamChunk).done
          then ((specDelta { content := some (lit "x") }).toList, true)
          else ((specDelta { content := some (lit "x") }).toList
                  ++ (runLines testParse []).1,
                (runLines testParse []).2) :=
  ⟨(c5_delta_field_precedence { text := some (lit "t"), message := some (lit "m") }
      testParse ('{' :: lit "x") []).1,
    (c5_delta_field_precedence { content := some (lit "x") } testParse
      ('{' :: lit "x") []).2 (by decide)⟩

/-! ### Single-line streams (claims C6 and C7) -/

theorem dropCRHead_ne (c : Char) (t : Str) (hc : c ≠ '\r') :
    dropCRHead (c :: t) = c :: t := by
  unfold dropCRHead
  split
  · next h =>
    injection h with h1 _
    exact absurd h1 hc
  · rfl

theorem dropWhile_head_false {p : Char → Bool} {l t : Str} {c : Char}
    (h : List.dropWhile p l = c :: t) : p c = false := by
  induction l with
  | nil => simp [List.dropWhile] at h
  | cons a l ih =>
    by_cases ha : p a
    · exact ih (by simpa [List.dropWhile, ha] using h)
    · rw [List.dropWhile_cons_of_neg (by simpa using ha)] at h
      injection h with h1 _
      rw [← h1]
      simpa using ha

/-- A string equal to its own trim does not end in a whitespace
character; in particular it has no trailing carriage return. -/
theorem jsTrim_eq_self_dropCRHead (b : Str) (htrim : jsTrim b = b) :
    dropCRHead b.reverse = b.reverse := by
  cases hb : b.reverse with
  | nil => simp [dropCRHead]
  | cons c t =>
    have hrev : List.dropWhile isWS (List.dropWhile isWS b).reverse = c :: t := by
      have := congrArg List.reverse htrim
      rw [jsTrim] at this
      simp only [List.reverse_reverse] at this
      rw [this, hb]
    have hcw : isWS c = false := dropWhile_head_false hrev
    have hc : c ≠ '\r' := by
      intro h
      rw [h] at hcw
      simp [isWS] at hcw
    exact dropCRHead_ne c t hc

theorem jsTrim_cons_ne_nil (a : Char) (l : Str) (ha : isWS a = false) :
    jsTrim (a :: l) ≠ [] := by
  have hdrop : List.dropWhile isWS (a :: l) = a :: l :=
    List.dropWhile_cons_of_neg (by simpa using ha)
  rw [jsTrim, hdrop]
  have : ∀ x : Str, List.dropWhile isWS (x ++ [a]) ≠ [] := by
    intro x
    induction x with
    | nil => simp [List.dropWhile, ha]
    | cons y x ih =>
      by_cases hy : isWS y
      · simpa [List.dropWhile_cons_of_pos, hy] using ih
      · simp [List.dropWhile_cons_of_neg, hy]
  intro hcon
  have h2 := this l.reverse
  rw [show (a :: l).reverse = l.reverse ++ [a] by simp] at hcon
  exact h2 (by simpa using congrArg List.reverse hcon)

theorem splitCRLF_push (x z acc : Str) (hx : '\n' ∉ x) :
    splitCRLF acc (x ++ z) = splitCRLF (x.reverse ++ acc) z := by
  induction x generalizing acc with
  | nil => simp
  | cons c rest ih =>
    have hc : c ≠ '\n' := fun h => hx (h ▸ List.mem_cons_self c rest)
    have hr : '\n' ∉ rest := fun h => hx (List.mem_cons_of_mem c h)
    simp [splitCRLF, hc, ih _ hr]

/-- A newline-terminated line with no inner newline and no trailing
carriage return is split off verbatim. -/
theorem splitCRLF_line (x y : Str) (hx : '\n' ∉ x)
    (hr : dropCRHead x.reverse = x.reverse) :
    splitCRLF [] (x ++ '\n' :: y) = (x :: (splitCRLF [] y).1, (splitCRLF [] y).2) := by
  rw [splitCRLF_push x ('\n' :: y) [] hx]
  simp [splitCRLF, hr]

theorem runLines_single (parse : Parse) (l : Str) :
    (runLines parse [l]).1
      = match classifyLine parse l with
        | .skip => []
        | .record c => (extractContent c).toList := by
  cases hcl : classifyLine parse l with
  | skip => simp [runLines, hcl]
  | record c => by_cases hd : c.done <;> simp [runLines, hcl, hd]

/-- A line that is itself a JSON candidate (it starts with an opening
brace) on which the parse fails is skipped by the per-line loop. -/
theorem classifyLine_parse_fail (parse : Parse) (m0 : Str)
    (hp : parse ('{' :: m0) = none) :
    classifyLine parse ('{' :: m0) = .skip := by
  have h1 : jsTrim ('{' :: m0) ≠ [] := jsTrim_cons_ne_nil '{' m0 (by decide)
  have hs1 : ('{' :: m0) ≠ lit "[DONE]" := fun h =>
    absurd (show ('{' : Char) = '[' from congrArg List.headI h) (by decide)
  have hs2 : ('{' :: m0) ≠ lit "data: [DONE]" := fun h =>
    absurd (show ('{' : Char) = 'd' from congrArg List.headI h) (by decide)
  rw [classifyLine, if_neg h1,
    show startsWithL (lit "data: ") ('{' :: m0) = false from rfl]
  rw [show startsWithL (lit "event:") ('{' :: m0) = false from rfl,
    show startsWithL (lit "id:") ('{' :: m0) = false from rfl,
    show startsWithL (lit "retry:") ('{' :: m0) = false from rfl]
  simp only [Bool.false_eq_true, false_or, or_self, if_false]
  rw [candidateClass, if_neg (by simp [hs1, hs2])]
  rw [if_neg (by simp [show startsWithL ['{'] ('{' :: m0) = true from rfl])]
  rw [hp]

/-- C6: a stream of three newline-terminated lines in one chunk — a valid
record, a malformed JSON candidate, a valid record — appends exactly the
header and the two valid deltas, emits only the success notice, and
behaves identically to the same stream without the malformed line. -/
theorem c6_malformed_line_isolated (parse : Parse)
    (v1 v2 m0 d1 d2 headerText successMessage : Str) (c1 c2 : StreamChunk)
    (hnl1 : '\n' ∉ v1) (hcr1 : dropCRHead v1.reverse = v1.reverse)
    (hnl2 : '\n' ∉ v2) (hcr2 : dropCRHead v2.reverse = v2.reverse)
    (hnlm : '\n' ∉ m0) (hcrm : dropCRHead ('{' :: m0).reverse = ('{' :: m0).reverse)
    (h1 : classifyLine parse v1 = .record c1) (he1 : extractContent c1 = some d1)
    (hd1 : c1.done = false)
    (h2 : classifyLine parse v2 = .record c2) (he2 : extractContent c2 = some d2)
    (hd2 : c2.done = false)
    (hp : parse ('{' :: m0) = none) :
    handleStreamingResponse parse [v1 ++ '\n' :: (('{' :: m0) ++ '\n' :: (v2 ++ ['\n']))]
        .eof headerText successMessage
      = { appends := [headerText, d1, d2], notices := [successMessage],
          releases := 1, reads := 2 }
    ∧ handleStreamingResponse parse [v1 ++ '\n' :: (('{' :: m0) ++ '\n' :: (v2 ++ ['\n']))]
        .eof headerText successMessage
      = handleStreamingResponse parse [v1 ++ '\n' :: (v2 ++ ['\n'])]
        .eof headerText successMessage := by
  have hnlm2 : '\n' ∉ ('{' :: m0) := by
    intro hmem
    rcases List.mem_cons.mp hmem with hh | hh
    · exact absurd hh (by decide)
    · exact hnlm hh
  have hsplit : splitCRLF [] (v1 ++ '\n' :: (('{' :: m0) ++ '\n' :: (v2 ++ ['\n'])))
      = ([v1, '{' :: m0, v2], []) := by
    rw [splitCRLF_line v1 _ hnl1 hcr1, splitCRLF_line ('{' :: m0) _ hnlm2 hcrm,
      splitCRLF_line v2 _ hnl2 hcr2]
    rfl
  have hsplit2 : splitCRLF [] (v1 ++ '\n' :: (v2 ++ ['\n'])) = ([v1, v2], []) := by
    rw [splitCRLF_line v1 _ hnl1 hcr1, splitCRLF_line v2 _ hnl2 hcr2]
    rfl
  have hrl : runLines parse [v1, '{' :: m0, v2] = ([d1, d2], false) := by
    simp [runLines, h1, he1, hd1, classifyLine_parse_fail parse m0 hp, h2, he2, hd2]
  have hrl2 : runLines parse [v1, v2] = ([d1, d2], false) := by
    simp [runLines, h1, he1, hd1, h2, he2, hd2]
  constructor
  · unfold handleStreamingResponse
    rw [runChunks_single, List.nil_append, hsplit, hrl]
    simp [runTail, jsTrim]
  · unfold handleStreamingResponse
    rw [runChunks_single, runChunks_single, List.nil_append, List.nil_append,
      hsplit, hsplit2, hrl, hrl2]

theorem c6_malformed_line_isolated_witness :
    handleStreamingResponse testParse
        [('{' :: lit "a") ++ '\n' :: (('{' :: lit "oops") ++ '\n' :: (('{' :: lit "x") ++ ['\n']))]
        .eof (lit "H") (lit "OK")
      = { appends := [lit "H", lit "Hello ", lit "x"], notices := [lit "OK"],
          releases := 1, reads := 2 }
    ∧ handleStreamingResponse testParse
        [('{' :: lit "a") ++ '\n' :: (('{' :: lit "oops") ++ '\n' :: (('{' :: lit "x") ++ ['\n']))]
        .eof (lit "H") (lit "OK")
      = handleStreamingResponse testParse
        [('{' :: lit "a") ++ '\n' :: (('{' :: lit "x") ++ ['\n'])]
        .eof (lit "H") (lit "OK") :=
  c6_malformed_line_isolated testParse ('{' :: lit "a") ('{' :: lit "x") (lit "oops")
    (lit "Hello ") (lit "x") (lit "H") (lit "OK")
    { content := some (lit "Hello ") } { content := some (lit "x") }
    (by decide) (by decide) (by decide) (by decide) (by decide) (by decide)
    (by decide) (by decide) (by decide) (by decide) (by decide) (by decide)
    (by decide)

/-! ### The residual-buffer path (claim C7) -/

/-- The JSON candidate that the residual-buffer processing extracts from
the buffer. -/
def tailCandidate (b : Str) : Str :=
  if startsWithL (lit "data: ") (jsTrim b) then jsTrim ((jsTrim b).drop 6)
  else jsTrim b

theorem startsWithL_head (p : Char) (ps s : Str) (h : startsWithL (p :: ps) s = true) :
    ∃ t, s = p :: t := by
  cases s with
  | nil => simp [startsWithL] at h
  | cons c cs =>
    simp [startsWithL] at h
    exact ⟨cs, by rw [h.1]⟩

/-- The guard of the residual-buffer processing agrees with the per-line
candidate classification on candidates that are not JSON arrays with a
parseable payload; for array candidates it agrees whenever the parse of
the array yields neither a delta nor a done flag. -/
theorem tail_candidate_cases (parse : Parse) (j : Str)
    (harr : startsWithL ['['] j = true →
      match parse j with
      | some c => extractContent c = none ∧ c.done = false
      | none => True) :
    (if j ≠ lit "[DONE]" ∧ startsWithL ['{'] j = true then
      match parse j with
      | none => []
      | some c => (extractContent c).toList
    else [])
      = match candidateClass parse j with
        | .skip => []
        | .record c => (extractContent c).toList := by
  by_cases hs1 : j = lit "[DONE]"
  · subst hs1
    rw [if_neg (by simp), candidateClass, if_pos (Or.inl rfl)]
  · by_cases hs2 : j = lit "data: [DONE]"
    · subst hs2
      rw [if_neg (by simp [show startsWithL ['{'] (lit "data: [DONE]") = false from rfl]),
        candidateClass, if_pos (Or.inr rfl)]
    · by_cases hbrace : startsWithL ['{'] j = true
      · have hjne : j ≠ [] := by
          intro hj
          rw [hj] at hbrace
          simp [startsWithL] at hbrace
        rw [if_pos ⟨hs1, hbrace⟩, candidateClass, if_neg (by simp [hs1, hs2]),
          if_neg (by simp [hjne, hbrace])]
        cases hp : parse j with
        | none => simp [hp]
        | some c => simp [hp]
      · rw [if_neg (by simp [hbrace])]
        by_cases hbrk : startsWithL ['['] j = true
        · have hjne : j ≠ [] := by
            intro hj
            rw [hj] at hbrk
            simp [startsWithL] at hbrk
          rw [candidateClass, if_neg (by simp [hs1, hs2]),
            if_neg (by simp [hjne, hbrk])]
          cases hp : parse j with
          | none => simp
          | some c =>
            have hc := harr hbrk
            rw [hp] at hc
            simp [hc.1]
        · rw [candidateClass]
          by_cases hj : j = []
          · rw [if_neg (by simp [hs1, hs2]), if_pos (Or.inl hj)]
          · rw [if_neg (by simp [hs1, hs2]),
              if_pos (Or.inr ⟨by simpa using hbrace, by simpa using hbrk⟩)]

/-- C7 as stated fails: the residual-buffer path trims the buffer before
the brace test, but the per-line path does not trim the candidate.  The
same line text ` {"…"}` (with a leading space) yields a delta when it
arrives as the residual line, and no delta when it arrives
newline-terminated through the per-line path. -/
theorem c7_residual_path_differs :
    (handleStreamingResponse testParse [' ' :: '{' :: lit "x"] .eof
        (lit "H") (lit "OK")).appends = [lit "H", lit "x"]
      ∧ (handleStreamingResponse testParse [' ' :: '{' :: (lit "x" ++ ['\n'])] .eof
        (lit "H") (lit "OK")).appends = [lit "H"] := by
  decide

/-- C7 corrected: for a residual line equal to its own trim (the residual
buffer can never hold a newline), the residual path extracts exactly the
delta the per-line path would extract for the same newline-terminated
line, and the final sink content of the invocation is the same whether or
not the final record carries a trailing newline — provided parsed JSON
arrays carry neither delta nor done flag, as `JSON.parse` guarantees.  A
residual line with leading whitespace breaks the equivalence. -/
theorem c7_residual_equiv_trimmed (parse : Parse) (b : Str)
    (headerText successMessage : Str)
    (htrim : jsTrim b = b)
    (harr : startsWithL ['['] (tailCandidate b) = true →
      match parse (tailCandidate b) with
      | some c => extractContent c = none ∧ c.done = false
      | none => True) :
    runTail parse b = (runLines parse [b]).1
      ∧ ('\n' ∉ b →
        (handleStreamingResponse parse [b] .eof headerText successMessage).appends
          = (handleStreamingResponse parse [b ++ ['\n']] .eof headerText
              successMessage).appends) := by
  have main : runTail parse b = (runLines parse [b]).1 := by
    by_cases hb : b = []
    · subst hb
      simp [runTail, runLines, classifyLine, jsTrim]
    · rw [runLines_single, runTail, classifyLine, htrim, if_neg hb, if_neg hb]
      dsimp only
      by_cases hd : startsWithL (lit "data: ") b = true
      · rw [if_pos hd, if_pos hd]
        have hcand : tailCandidate b = jsTrim (List.drop 6 b) := by
          rw [tailCandidate, htrim, if_pos hd]
        rw [hcand] at harr
        exact tail_candidate_cases parse (jsTrim (List.drop 6 b)) harr
      · rw [if_neg hd, if_neg hd]
        by_cases he : startsWithL (lit "event:") b = true ∨ startsWithL (lit "id:") b = true
            ∨ startsWithL (lit "retry:") b = true
        · rw [if_pos he]
          have hbf : startsWithL ['{'] b = false := by
            rcases he with h | h | h
            · obtain ⟨t, ht⟩ := startsWithL_head 'e' (lit "vent:") b h
              rw [ht]
              rfl
            · obtain ⟨t, ht⟩ := startsWithL_head 'i' (lit "d:") b h
              rw [ht]
              rfl
            · obtain ⟨t, ht⟩ := startsWithL_head 'r' (lit "etry:") b h
              rw [ht]
              rfl
          rw [if_neg (by simp [hbf])]
        · rw [if_neg he]
          have hcand : tailCandidate b = b := by
            rw [tailCandidate, htrim, if_neg hd]
          rw [hcand] at harr
          exact tail_candidate_cases parse b harr
  refine ⟨main, fun hnl => ?_⟩
  have hcr : dropCRHead b.reverse = b.reverse := jsTrim_eq_self_dropCRHead b htrim
  have hsplit1 : splitCRLF [] b = ([], b) := by
    simpa using splitCRLF_no_newline b [] hnl
  have hsplit2 : splitCRLF [] (b ++ ['\n']) = ([b], []) := by
    simpa [splitCRLF] using splitCRLF_line b [] hnl hcr
  have h0 : runLines parse ([] : List Str) = ([], false) := rfl
  have hrt0 : runTail parse [] = [] := rfl
  unfold handleStreamingResponse
  rw [runChunks_single, runChunks_single, List.nil_append, List.nil_append,
    hsplit1, hsplit2]
  by_cases hfb : (runLines parse [b]).2 = true
  · simp [h0, hrt0, hfb, main]
  · simp [h0, hrt0, hfb, main]

theorem c7_residual_equiv_trimmed_witness :
    jsTrim ('{' :: lit "x") = '{' :: lit "x"
      ∧ runTail testParse ('{' :: lit "x") = (runLines testParse ['{' :: lit "x"]).1
      ∧ (handleStreamingResponse testParse ['{' :: lit "x"] .eof
            (lit "H") (lit "OK")).appends
        = (handleStreamingResponse testParse [('{' :: lit "x") ++ ['\n']] .eof
            (lit "H") (lit "OK")).appends :=
  ⟨by decide,
    (c7_residual_equiv_trimmed testParse ('{' :: lit "x") (lit "H") (lit "OK")
      (by decide) (fun h => absurd h (by decide))).1,
    (c7_residual_equiv_trimmed testParse ('{' :: lit "x") (lit "H") (lit "OK")
      (by decide) (fun h => absurd h (by decide))).2 (by decide)⟩

/-! ### Byte-level chunking invariance (claim C3) -/

/-- Modelled from the spec: the ByteDecoder of §4.1 — `new TextDecoder()`
with `decode(value, { stream: true })`, which is a platform API and not
part of src/ — buffers an incomplete trailing multi-byte UTF-8 sequence
and emits it prepended to the next chunk.  `byteLen b` is the length of
the UTF-8 sequence introduced by lead byte `b`; stray continuation bytes
are consumed as single-byte sequences. -/
def byteLen (b : Nat) : Nat :=
  if b < 0x80 then 1
  else if b < 0xC0 then 1
  else if b < 0xE0 then 2
  else if b < 0xF0 then 3
  else 4

/-- Splits a byte list into its complete UTF-8 sequences and the
incomplete trailing remainder (a lead byte whose continuation bytes have
not all arrived yet). -/
def takeChars : List Nat → List (List Nat) × List Nat
  | [] => ([], [])
  | b :: rest =>
    if rest.length + 1 ≥ byteLen b then
      let r := takeChars (rest.drop (byteLen b - 1))
      ((b :: rest.take (byteLen b - 1)) :: r.1, r.2)
    else ([], b :: rest)
termination_by l => l.length
decreasing_by
  simp only [List.length_drop, List.length_cons]
  omega

/-- The payload bits of a continuation byte. -/
def contBits (b : Nat) : Nat := b % 0x40

/-- The character encoded by one complete UTF-8 sequence (modelled from
the spec; the identity of the decoded characters plays no role in the
chunking argument). -/
def decodeGroup : List Nat → Char
  | [b] => if b < 0x80 then Char.ofNat b else Char.ofNat 0xFFFD
  | [b1, b2] => Char.ofNat ((b1 % 0x20) * 0x40 + contBits b2)
  | [b1, b2, b3] => Char.ofNat ((b1 % 0x10) * 0x1000 + contBits b2 * 0x40 + contBits b3)
  | [b1, b2, b3, b4] =>
    Char.ofNat ((b1 % 0x8) * 0x40000 + contBits b2 * 0x1000 + contBits b3 * 0x40 + contBits b4)
  | _ => Char.ofNat 0xFFFD

def decodeGroups (gs : List (List Nat)) : Str := gs.map decodeGroup

/-- The streaming decoder over a chunked byte stream: the incomplete
trailing sequence is carried from chunk to chunk; bytes still pending at
end of stream are never emitted (the code never flushes the decoder). -/
def decodeChunks : List Nat → List (List Nat) → List Str
  | _, [] => []
  | pend, c :: rest =>
    let r := takeChars (pend ++ c)
    decodeGroups r.1 :: decodeChunks r.2 rest

/-- The byte-level pipeline: the reader delivers raw byte chunks, each is
decoded with carry-over, and the decoded text feeds the read loop. -/
def handleStreamingResponseBytes (parse : Parse) (byteChunks : List (List Nat))
    (ending : Ending) (headerText successMessage : Str) : Effects :=
  handleStreamingResponse parse (decodeChunks [] byteChunks) ending
    headerText successMessage

theorem takeChars_append_len (n : Nat) : ∀ (a b : List Nat), a.length = n →
    takeChars (a ++ b)
      = ((takeChars a).1 ++ (takeChars ((takeChars a).2 ++ b)).1,
         (takeChars ((takeChars a).2 ++ b)).2) := by
  induction n using Nat.strong_induction_on with
  | _ n ih =>
    intro a b hn
    cases a with
    | nil => simp [takeChars]
    | cons x rest =>
      by_cases hcond : rest.length + 1 ≥ byteLen x
      · have hle : byteLen x - 1 ≤ rest.length := by omega
        have htake : (rest ++ b).take (byteLen x - 1) = rest.take (byteLen x - 1) :=
          List.take_append_of_le_length hle
        have hdrop : (rest ++ b).drop (byteLen x - 1)
            = rest.drop (byteLen x - 1) ++ b := List.drop_append_of_le_length hle
        have hcond2 : (rest ++ b).length + 1 ≥ byteLen x := by
          simp only [List.length_append]
          omega
        have hlt : (rest.drop (byteLen x - 1)).length < n := by
          simp only [List.length_drop]
          simp only [List.length_cons] at hn
          omega
        have ihx := ih _ hlt (rest.drop (byteLen x - 1)) b rfl
        rw [show (x :: rest) ++ b = x :: (rest ++ b) from rfl]
        rw [takeChars, if_pos hcond2, htake, hdrop, ihx]
        rw [show takeChars (x :: rest)
            = ((x :: rest.take (byteLen x - 1)) :: (takeChars (rest.drop (byteLen x - 1))).1,
               (takeChars (rest.drop (byteLen x - 1))).2) from by
          rw [takeChars, if_pos hcond]]
        simp
      · rw [show takeChars (x :: rest) = ([], x :: rest) from by
          rw [takeChars, if_neg hcond]]
        simp

theorem takeChars_append (a b : List Nat) :
    takeChars (a ++ b)
      = ((takeChars a).1 ++ (takeChars ((takeChars a).2 ++ b)).1,
         (takeChars ((takeChars a).2 ++ b)).2) :=
  takeChars_append_len a.length a b rfl

theorem takeChars_rem_len (n : Nat) : ∀ (x : List Nat), x.length = n →
    takeChars (takeChars x).2 = ([], (takeChars x).2) := by
  induction n using Nat.strong_induction_on with
  | _ n ih =>
    intro x hn
    cases x with
    | nil => simp [takeChars]
    | cons b rest =>
      by_cases hcond : rest.length + 1 ≥ byteLen b
      · have hlt : (rest.drop (byteLen b - 1)).length < n := by
          simp only [List.length_drop]
          simp only [List.length_cons] at hn
          omega
        rw [show takeChars (b :: rest)
            = ((b :: rest.take (byteLen b - 1)) :: (takeChars (rest.drop (byteLen b - 1))).1,
               (takeChars (rest.drop (byteLen b - 1))).2) from by
          rw [takeChars, if_pos hcond]]
        exact ih _ hlt (rest.drop (byteLen b - 1)) rfl
      · rw [show takeChars (b :: rest) = ([], b :: rest) from by
          rw [takeChars, if_neg hcond]]
        rw [takeChars, if_neg hcond]

theorem takeChars_rem (x : List Nat) :
    takeChars (takeChars x).2 = ([], (takeChars x).2) :=
  takeChars_rem_len x.length x rfl

/-- The concatenation of the strings emitted for a chunked byte stream
equals the string emitted for the whole byte sequence at once. -/
theorem decodeChunks_flatten (bcs : List (List Nat)) : ∀ (pend : List Nat),
    takeChars pend = ([], pend) →
    (decodeChunks pend bcs).flatten
      = decodeGroups (takeChars (pend ++ bcs.flatten)).1 := by
  induction bcs with
  | nil =>
    intro pend hirr
    simp [decodeChunks, decodeGroups, hirr]
  | cons c rest ih =>
    intro pend hirr
    simp only [decodeChunks, List.flatten_cons]
    rw [ih (takeChars (pend ++ c)).2 (takeChars_rem (pend ++ c))]
    rw [← List.append_assoc, takeChars_append (pend ++ c) rest.flatten]
    simp [decodeGroups]

/-- The final appends depend only on the concatenation of the delivered
text chunks. -/
theorem handle_appends_flatten (parse : Parse) (chunks : List Str)
    (headerText successMessage : Str) :
    (handleStreamingResponse parse chunks .eof headerText successMessage).appends
      = (handleStreamingResponse parse [chunks.flatten] .eof headerText
          successMessage).appends := by
  cases chunks with
  | nil =>
    simp [handleStreamingResponse, runChunks, runTail, jsTrim, splitCRLF, runLines]
  | cons c rest =>
    have hobs := runChunks_join parse rest c []
    simp only [obsR, Prod.mk.injEq] at hobs
    obtain ⟨h1, h2, h3⟩ := hobs
    unfold handleStreamingResponse
    by_cases hf : (runChunks parse (c :: rest) []).finished
    · have hf2 : (runChunks parse [c ++ rest.flatten] []).finished = true := by
        rw [← h2, hf]
      simp [hf, hf2, h1, List.flatten_cons]
    · have hf2 : (runChunks parse [c ++ rest.flatten] []).finished = false := by
        rw [← h2]
        simpa using hf
      have hbuf : (runChunks parse (c :: rest) []).buffer
          = (runChunks parse [c ++ rest.flatten] []).buffer := by
        simpa [hf, hf2] using h3
      simp [hf, hf2, h1, hbuf, List.flatten_cons]

/-- C3: for a complete logical response ending in stream exhaustion,
every partition of its bytes into chunks — boundaries inside a JSON
record or inside a multi-byte UTF-8 sequence included — yields the same
final sink content (header plus the same deltas in the same order) as
delivering all bytes in one chunk. -/
theorem c3_chunking_invariance (parse : Parse) (byteChunks : List (List Nat))
    (headerText successMessage : Str) :
    (handleStreamingResponseBytes parse byteChunks .eof headerText
        successMessage).appends
      = (handleStreamingResponseBytes parse [byteChunks.flatten] .eof headerText
          successMessage).appends := by
  unfold handleStreamingResponseBytes
  have hone : decodeChunks [] [byteChunks.flatten]
      = [decodeGroups (takeChars byteChunks.flatten).1] := by
    simp [decodeChunks]
  have hflat : (decodeChunks [] byteChunks).flatten
      = decodeGroups (takeChars byteChunks.flatten).1 := by
    simpa using decodeChunks_flatten byteChunks [] (by simp [takeChars])
  rw [handle_appends_flatten parse (decodeChunks [] byteChunks), hflat, hone]

end StreamingSpec
